import Mathlib

/-!
Shallow embedding of the array-utils crate (src/lib.rs), a library of pure
transformations over fixed-size arrays.

Modelling conventions:
* A Rust array `[T; N]` is a `List T` of length `N`; the const-generic size
  parameters (`OUTPUT_SIZE`, `RESULT_SIZE`, ...) become explicit `Nat`
  arguments wherever they are not determined by an input array.
* `usize` is modelled as `Nat`.  Rust's unsigned subtraction panics on
  underflow in debug builds (and in release builds the wrapped value leads to
  an out-of-bounds indexing panic in the functions below), so every
  subtraction appearing in the source is modelled by `checkedSub`, which
  returns `none` exactly when the Rust expression underflows.
* Every array read `a[i]` and write `a[i] = v` is modelled by `readAt` and
  `writeAt`, which return `none` exactly when the access is out of bounds
  (a panic in Rust).  A function of this file therefore returns `some r`
  iff the Rust function returns normally with result `r`, and `none` iff
  the Rust function panics.
* Each Rust `for` loop is modelled by structural recursion over the list of
  indices the loop iterates (`List.range' start len`); an early `break` or
  `return` stops the recursion.
-/

namespace ArrayUtils

/-- Panic-checked array read: models the Rust rvalue `a[i]`. -/
def readAt {T : Type} (l : List T) (i : Nat) : Option T :=
  l[i]?

/-- Panic-checked array write: models the Rust statement `a[i] = v`. -/
def writeAt {T : Type} (l : List T) (i : Nat) (v : T) : Option (List T) :=
  if i < l.length then some (l.set i v) else none

/-- Rust `usize` subtraction `x - y`: `none` (panic) on underflow. -/
def checkedSub (x y : Nat) : Option Nat :=
  if y ≤ x then some (x - y) else none

/-- `min_of_sizes` from src/lib.rs (lines 86-92). -/
def min_of_sizes (x y : Nat) : Nat :=
  if x < y then x else y

/-- Loop body shared verbatim by `array_resize`, the first loop of `join`
and the first loop of `splice`: `for i in R { dst[i] = src[i]; }`. -/
def copyLoop {T : Type} (src : List T) : List Nat → List T → Option (List T)
  | [], dst => some dst
  | i :: rest, dst => do
      let v ← readAt src i
      let dst' ← writeAt dst i v
      copyLoop src rest dst'

/-- Loop shared verbatim by `sized_slice` and the second loop of `splice`:
`for i in R { if i - off >= lim { break; } dst[i - off] = src[i]; }`
where `lim` is the (static) length of `dst`. -/
def sliceWriteLoop {T : Type} (src : List T) (off lim : Nat) :
    List Nat → List T → Option (List T)
  | [], dst => some dst
  | i :: rest, dst => do
      let j ← checkedSub i off
      if lim ≤ j then
        some dst
      else do
        let v ← readAt src i
        let dst' ← writeAt dst j v
        sliceWriteLoop src off lim rest dst'

/-- Second loop of `join` (src/lib.rs lines 454-460):
`for i in R { if i - off >= lim { break; } buffer[i] = right[i - off]; }`
where `off = LEFT_SIZE` and `lim = RIGHT_SIZE`. -/
def joinLoop2 {T : Type} (src : List T) (off lim : Nat) :
    List Nat → List T → Option (List T)
  | [], dst => some dst
  | i :: rest, dst => do
      let j ← checkedSub i off
      if lim ≤ j then
        some dst
      else do
        let v ← readAt src j
        let dst' ← writeAt dst i v
        joinLoop2 src off lim rest dst'

/-- Loop of `superimpose` (src/lib.rs lines 414-416):
`for i in R { main_array[i] = sub_array[i - starting_from]; }`. -/
def superimposeLoop {T : Type} (sub : List T) (starting_from : Nat) :
    List Nat → List T → Option (List T)
  | [], main => some main
  | i :: rest, main => do
      let j ← checkedSub i starting_from
      let v ← readAt sub j
      let main' ← writeAt main i v
      superimposeLoop sub starting_from rest main'

/-- Loop of `drift_to_end` (src/lib.rs lines 305-307):
`for i in R { buffer[SIZE - margin - till + i] = array[i]; }`. -/
def driftEndLoop {T : Type} (array : List T) (SIZE margin till : Nat) :
    List Nat → List T → Option (List T)
  | [], buffer => some buffer
  | i :: rest, buffer => do
      let a ← checkedSub SIZE margin
      let b ← checkedSub a till
      let v ← readAt array i
      let buffer' ← writeAt buffer (b + i) v
      driftEndLoop array SIZE margin till rest buffer'

/-- Loop of `drift_to_begin` (src/lib.rs lines 342-348):
`for i in R { if margin + i - from >= SIZE { break; } buffer[margin + i - from] = array[i]; }`. -/
def driftBeginLoop {T : Type} (array : List T) (SIZE margin fromIdx : Nat) :
    List Nat → List T → Option (List T)
  | [], buffer => some buffer
  | i :: rest, buffer => do
      let idx ← checkedSub (margin + i) fromIdx
      if SIZE ≤ idx then
        some buffer
      else do
        let v ← readAt array i
        let buffer' ← writeAt buffer idx v
        driftBeginLoop array SIZE margin fromIdx rest buffer'

/-- Loop of `initialize_till` (src/lib.rs lines 177-184). -/
def initTillLoop {T : Type} [DecidableEq T] (f : Nat → T) (till : T)
    (OUTPUT_SIZE : Nat) : List Nat → List T → Option (List T × Nat)
  | [], buffer => some (buffer, OUTPUT_SIZE)
  | i :: rest, buffer =>
      let value := f i
      if value = till then
        some (buffer, i)
      else do
        let buffer' ← writeAt buffer i value
        initTillLoop f till OUTPUT_SIZE rest buffer'

/-- Loop of `initialize_from_option` (src/lib.rs lines 222-227). -/
def initOptionLoop {T : Type} (f : Nat → Option T)
    (OUTPUT_SIZE : Nat) : List Nat → List T → Option (List T × Nat)
  | [], buffer => some (buffer, OUTPUT_SIZE)
  | i :: rest, buffer =>
      match f i with
      | none => some (buffer, i)
      | some value => do
          let buffer' ← writeAt buffer i value
          initOptionLoop f OUTPUT_SIZE rest buffer'

/-- Loop of `initialize_from_result` (src/lib.rs lines 265-270). -/
def initResultLoop {T E : Type} (f : Nat → Except E T)
    (OUTPUT_SIZE : Nat) : List Nat → List T → Option (List T × Nat)
  | [], buffer => some (buffer, OUTPUT_SIZE)
  | i :: rest, buffer =>
      match f i with
      | Except.error _ => some (buffer, i)
      | Except.ok value => do
          let buffer' ← writeAt buffer i value
          initResultLoop f OUTPUT_SIZE rest buffer'

/-- `initialize_till` from src/lib.rs (lines 167-186).  `OUTPUT_SIZE` is the
const-generic output length. -/
def initialize_till {T : Type} [DecidableEq T] (f : Nat → T) (till fill : T)
    (OUTPUT_SIZE : Nat) : Option (List T × Nat) :=
  initTillLoop f till OUTPUT_SIZE (List.range' 0 OUTPUT_SIZE)
    (List.replicate OUTPUT_SIZE fill)

/-- `initialize_from_option` from src/lib.rs (lines 213-229). -/
def initialize_from_option {T : Type} (f : Nat → Option T) (fill : T)
    (OUTPUT_SIZE : Nat) : Option (List T × Nat) :=
  initOptionLoop f OUTPUT_SIZE (List.range' 0 OUTPUT_SIZE)
    (List.replicate OUTPUT_SIZE fill)

/-- `initialize_from_result` from src/lib.rs (lines 256-272). -/
def initialize_from_result {T E : Type} (f : Nat → Except E T) (fill : T)
    (OUTPUT_SIZE : Nat) : Option (List T × Nat) :=
  initResultLoop f OUTPUT_SIZE (List.range' 0 OUTPUT_SIZE)
    (List.replicate OUTPUT_SIZE fill)

/-- `drift_to_end` from src/lib.rs (lines 295-309).  `SIZE` is the length of
`array`. -/
def drift_to_end {T : Type} (array : List T) (till margin : Nat) (fill : T) :
    Option (List T) :=
  driftEndLoop array array.length margin till (List.range' 0 till)
    (List.replicate array.length fill)

/-- `drift_to_begin` from src/lib.rs (lines 332-350).  The loop runs over
`from..SIZE`. -/
def drift_to_begin {T : Type} (array : List T) (fromIdx margin : Nat)
    (fill : T) : Option (List T) :=
  driftBeginLoop array array.length margin fromIdx
    (List.range' fromIdx (array.length - fromIdx))
    (List.replicate array.length fill)

/-- `array_resize` from src/lib.rs (lines 369-381).  `OUTPUT_SIZE` is the
const-generic output length. -/
def array_resize {T : Type} (array : List T) (OUTPUT_SIZE : Nat) (fill : T) :
    Option (List T) :=
  copyLoop array (List.range' 0 (min_of_sizes array.length OUTPUT_SIZE))
    (List.replicate OUTPUT_SIZE fill)

/-- `superimpose` from src/lib.rs (lines 406-418).  The loop runs over
`starting_from..min_of_sizes(starting_from + SUB_SIZE, MAIN_SIZE)`. -/
def superimpose {T : Type} (main_array sub_array : List T)
    (starting_from : Nat) : Option (List T) :=
  superimposeLoop sub_array starting_from
    (List.range' starting_from
      (min_of_sizes (starting_from + sub_array.length) main_array.length -
        starting_from))
    main_array

/-- `join` from src/lib.rs (lines 440-463).  `RESULT_SIZE` is the
const-generic output length. -/
def join {T : Type} (left right : List T) (RESULT_SIZE : Nat) (fill : T) :
    Option (List T) :=
  (copyLoop left (List.range' 0 (min_of_sizes left.length RESULT_SIZE))
      (List.replicate RESULT_SIZE fill)).bind
    (fun buffer =>
      joinLoop2 right left.length right.length
        (List.range' left.length
          (min_of_sizes (left.length + right.length) RESULT_SIZE -
            left.length))
        buffer)

/-- `splice` from src/lib.rs (lines 484-507).  `LEFT_SIZE` and `RIGHT_SIZE`
are the const-generic output lengths. -/
def splice {T : Type} (original : List T) (LEFT_SIZE RIGHT_SIZE : Nat)
    (fill : T) : Option (List T × List T) :=
  (copyLoop original
      (List.range' 0 (min_of_sizes LEFT_SIZE original.length))
      (List.replicate LEFT_SIZE fill)).bind
    (fun left =>
      (sliceWriteLoop original LEFT_SIZE RIGHT_SIZE
          (List.range' LEFT_SIZE
            (min_of_sizes (LEFT_SIZE + RIGHT_SIZE) original.length -
              LEFT_SIZE))
          (List.replicate RIGHT_SIZE fill)).bind
        (fun right => some (left, right)))

/-- `sized_slice` from src/lib.rs (lines 523-542).  `SLICE_SIZE` is the
const-generic output length; the loop runs over
`from..min_of_sizes(till, ORIGINAL_SIZE)`. -/
def sized_slice {T : Type} (original : List T) (fromIdx till SLICE_SIZE : Nat)
    (fill : T) : Option (List T) :=
  sliceWriteLoop original fromIdx SLICE_SIZE
    (List.range' fromIdx (min_of_sizes till original.length - fromIdx))
    (List.replicate SLICE_SIZE fill)

/-- Rust `Result::ok`: drops the error payload. -/
def resultOk {T E : Type} : Except E T → Option T
  | Except.ok v => some v
  | Except.error _ => none

/-- Modelled from the spec (4.1 "generate_until"): the least index
`i < n` (searching upward from `k`) with `f i = till`, or `k + n` when no
such index exists.  Used only to state the specification of
`initialize_till`. -/
def firstFrom {T : Type} [DecidableEq T] (f : Nat → T) (till : T) :
    Nat → Nat → Nat
  | k, 0 => k
  | k, Nat.succ n => if f k = till then k else firstFrom f till (k + 1) n

/-- The least index `i < OUTPUT_SIZE` with `f i = till`, or `OUTPUT_SIZE`
when the sentinel never occurs. -/
def firstSentinel {T : Type} [DecidableEq T] (f : Nat → T) (till : T)
    (OUTPUT_SIZE : Nat) : Nat :=
  firstFrom f till 0 OUTPUT_SIZE

lemma checkedSub_of_le {x y : Nat} (h : y ≤ x) : checkedSub x y = some (x - y) := by
  simp [checkedSub, h]

lemma writeAt_of_lt {T : Type} {l : List T} {i : Nat} (v : T) (h : i < l.length) :
    writeAt l i v = some (l.set i v) := by
  simp [writeAt, h]

lemma min_of_sizes_eq (x y : Nat) : min_of_sizes x y = min x y := by
  simp only [min_of_sizes]
  split <;> omega

/-- Characterization of the shared copy loop `for i in k..k+n { dst[i] = src[i] }`. -/
lemma copyLoop_spec {T : Type} (src : List T) :
    ∀ (n k : Nat) (dst : List T),
      (∀ i ∈ List.range' k n, i < src.length) →
      (∀ i ∈ List.range' k n, i < dst.length) →
      ∃ r, copyLoop src (List.range' k n) dst = some r ∧
        r.length = dst.length ∧
        ∀ j, r[j]? = if k ≤ j ∧ j < k + n then src[j]? else dst[j]? := by
  intro n
  induction n with
  | zero =>
      intro k dst _ _
      refine ⟨dst, rfl, rfl, fun j => ?_⟩
      rw [if_neg]
      omega
  | succ n ih =>
      intro k dst hsrc hdst
      have hk_src : k < src.length := hsrc k (by rw [List.mem_range'_1]; omega)
      have hk_dst : k < dst.length := hdst k (by rw [List.mem_range'_1]; omega)
      obtain ⟨r, hr, hlen, hget⟩ := ih (k + 1) (dst.set k src[k])
        (fun i hi => hsrc i (by rw [List.mem_range'_1] at hi ⊢; omega))
        (fun i hi => by
          rw [List.length_set]
          exact hdst i (by rw [List.mem_range'_1] at hi ⊢; omega))
      refine ⟨r, ?_, by rw [hlen, List.length_set], fun j => ?_⟩
      · rw [List.range'_succ]
        simp only [copyLoop, readAt, List.getElem?_eq_getElem hk_src,
          writeAt_of_lt _ hk_dst, Option.bind_eq_bind, Option.some_bind]
        exact hr
      · rw [hget j]
        by_cases h1 : k + 1 ≤ j ∧ j < k + 1 + n
        · rw [if_pos h1, if_pos (by omega)]
        · rw [if_neg h1]
          by_cases h2 : j = k
          · subst h2
            rw [List.getElem?_set_eq_of_lt _ hk_dst, if_pos (by omega),
              List.getElem?_eq_getElem hk_src]
          · rw [List.getElem?_set_ne (by omega), if_neg (by omega)]

/-- Characterization of the slice-style loop (used by `sized_slice` and the
second loop of `splice`): it reads `src[i]` and writes `dst[i - off]`,
stopping at the first `i` with `i - off ≥ lim`. -/
lemma sliceWriteLoop_spec {T : Type} (src : List T) (off lim : Nat) :
    ∀ (n k : Nat) (dst : List T),
      off ≤ k →
      (∀ i ∈ List.range' k n, i < src.length) →
      dst.length = lim →
      ∃ r, sliceWriteLoop src off lim (List.range' k n) dst = some r ∧
        r.length = dst.length ∧
        ∀ j, r[j]? = if k ≤ off + j ∧ off + j < k + n ∧ j < lim
          then src[off + j]? else dst[j]? := by
  intro n
  induction n with
  | zero =>
      intro k dst _ _ _
      refine ⟨dst, rfl, rfl, fun j => ?_⟩
      rw [if_neg]
      omega
  | succ n ih =>
      intro k dst hoff hsrc hdst
      have hk_src : k < src.length := hsrc k (by rw [List.mem_range'_1]; omega)
      by_cases hbreak : lim ≤ k - off
      · refine ⟨dst, ?_, rfl, fun j => ?_⟩
        · rw [List.range'_succ]
          simp only [sliceWriteLoop, checkedSub_of_le hoff,
            Option.bind_eq_bind, Option.some_bind, if_pos hbreak]
        · rw [if_neg]
          omega
      · have hwr : k - off < lim := by omega
        obtain ⟨r, hr, hlen, hget⟩ := ih (k + 1) (dst.set (k - off) src[k])
          (by omega)
          (fun i hi => hsrc i (by rw [List.mem_range'_1] at hi ⊢; omega))
          (by rw [List.length_set]; exact hdst)
        refine ⟨r, ?_, by rw [hlen, List.length_set], fun j => ?_⟩
        · rw [List.range'_succ]
          simp only [sliceWriteLoop, checkedSub_of_le hoff, Option.bind_eq_bind,
            Option.some_bind, if_neg hbreak, readAt,
            List.getElem?_eq_getElem hk_src,
            writeAt_of_lt _ (show k - off < dst.length by omega)]
          exact hr
        · rw [hget j]
          by_cases h1 : k + 1 ≤ off + j ∧ off + j < k + 1 + n ∧ j < lim
          · rw [if_pos h1, if_pos (by omega)]
          · rw [if_neg h1]
            by_cases h2 : j = k - off
            · subst h2
              have hoj : off + (k - off) = k := by omega
              rw [List.getElem?_set_eq_of_lt _ (show k - off < dst.length by omega),
                if_pos (show _ ∧ _ ∧ _ by omega), hoj,
                List.getElem?_eq_getElem hk_src]
            · rw [List.getElem?_set_ne (by omega), if_neg (by omega)]

/-- Characterization of the second loop of `join`: it reads `src[i - off]`
and writes `dst[i]`, stopping at the first `i` with `i - off ≥ lim`. -/
lemma joinLoop2_spec {T : Type} (src : List T) (off lim : Nat)
    (hsl : src.length = lim) :
    ∀ (n k : Nat) (dst : List T),
      off ≤ k →
      (∀ i ∈ List.range' k n, i < dst.length) →
      ∃ r, joinLoop2 src off lim (List.range' k n) dst = some r ∧
        r.length = dst.length ∧
        ∀ j, r[j]? = if k ≤ j ∧ j < k + n ∧ j - off < lim
          then src[j - off]? else dst[j]? := by
  intro n
  induction n with
  | zero =>
      intro k dst _ _
      refine ⟨dst, rfl, rfl, fun j => ?_⟩
      rw [if_neg]
      omega
  | succ n ih =>
      intro k dst hoff hdst
      have hk_dst : k < dst.length := hdst k (by rw [List.mem_range'_1]; omega)
      by_cases hbreak : lim ≤ k - off
      · refine ⟨dst, ?_, rfl, fun j => ?_⟩
        · rw [List.range'_succ]
          simp only [joinLoop2, checkedSub_of_le hoff,
            Option.bind_eq_bind, Option.some_bind, if_pos hbreak]
        · rw [if_neg]
          omega
      · have hrd : k - off < src.length := by omega
        obtain ⟨r, hr, hlen, hget⟩ := ih (k + 1) (dst.set k src[k - off])
          (by omega)
          (fun i hi => by
            rw [List.length_set]
            exact hdst i (by rw [List.mem_range'_1] at hi ⊢; omega))
        refine ⟨r, ?_, by rw [hlen, List.length_set], fun j => ?_⟩
        · rw [List.range'_succ]
          simp only [joinLoop2, checkedSub_of_le hoff, Option.bind_eq_bind,
            Option.some_bind, if_neg hbreak, readAt,
            List.getElem?_eq_getElem hrd, writeAt_of_lt _ hk_dst]
          exact hr
        · rw [hget j]
          by_cases h1 : k + 1 ≤ j ∧ j < k + 1 + n ∧ j - off < lim
          · rw [if_pos h1, if_pos (by omega)]
          · rw [if_neg h1]
            by_cases h2 : j = k
            · subst h2
              rw [List.getElem?_set_eq_of_lt _ hk_dst,
                if_pos (show _ ∧ _ ∧ _ by omega),
                List.getElem?_eq_getElem hrd]
            · rw [List.getElem?_set_ne (by omega), if_neg (by omega)]

/-- Characterization of the loop of `superimpose`: it reads `src[i - s]` and
writes `main[i]`, with no break. -/
lemma superimposeLoop_spec {T : Type} (sub : List T) (s : Nat) :
    ∀ (n k : Nat) (main : List T),
      s ≤ k →
      (∀ i ∈ List.range' k n, i - s < sub.length) →
      (∀ i ∈ List.range' k n, i < main.length) →
      ∃ r, superimposeLoop sub s (List.range' k n) main = some r ∧
        r.length = main.length ∧
        ∀ j, r[j]? = if k ≤ j ∧ j < k + n then sub[j - s]? else main[j]? := by
  intro n
  induction n with
  | zero =>
      intro k main _ _ _
      refine ⟨main, rfl, rfl, fun j => ?_⟩
      rw [if_neg]
      omega
  | succ n ih =>
      intro k main hs hsub hmain
      have hk_sub : k - s < sub.length := hsub k (by rw [List.mem_range'_1]; omega)
      have hk_main : k < main.length := hmain k (by rw [List.mem_range'_1]; omega)
      obtain ⟨r, hr, hlen, hget⟩ := ih (k + 1) (main.set k sub[k - s])
        (by omega)
        (fun i hi => hsub i (by rw [List.mem_range'_1] at hi ⊢; omega))
        (fun i hi => by
          rw [List.length_set]
          exact hmain i (by rw [List.mem_range'_1] at hi ⊢; omega))
      refine ⟨r, ?_, by rw [hlen, List.length_set], fun j => ?_⟩
      · rw [List.range'_succ]
        simp only [superimposeLoop, checkedSub_of_le hs, Option.bind_eq_bind,
          Option.some_bind, readAt, List.getElem?_eq_getElem hk_sub,
          writeAt_of_lt _ hk_main]
        exact hr
      · rw [hget j]
        by_cases h1 : k + 1 ≤ j ∧ j < k + 1 + n
        · rw [if_pos h1, if_pos (by omega)]
        · rw [if_neg h1]
          by_cases h2 : j = k
          · subst h2
            rw [List.getElem?_set_eq_of_lt _ hk_main, if_pos (by omega),
              List.getElem?_eq_getElem hk_sub]
          · rw [List.getElem?_set_ne (by omega), if_neg (by omega)]

/-- Characterization of the loop of `drift_to_begin`: it writes
`buffer[margin + i - from] = array[i]`, stopping at the first `i` with
`margin + i - from ≥ SIZE`. -/
lemma driftBeginLoop_spec {T : Type} (array : List T) (SIZE margin fromIdx : Nat) :
    ∀ (n k : Nat) (buffer : List T),
      fromIdx ≤ k →
      (∀ i ∈ List.range' k n, i < array.length) →
      buffer.length = SIZE →
      ∃ r, driftBeginLoop array SIZE margin fromIdx (List.range' k n) buffer =
          some r ∧
        r.length = buffer.length ∧
        ∀ j, r[j]? = if margin ≤ j ∧ k ≤ fromIdx + (j - margin) ∧
            fromIdx + (j - margin) < k + n ∧ j < SIZE
          then array[fromIdx + (j - margin)]? else buffer[j]? := by
  intro n
  induction n with
  | zero =>
      intro k buffer _ _ _
      refine ⟨buffer, rfl, rfl, fun j => ?_⟩
      rw [if_neg]
      omega
  | succ n ih =>
      intro k buffer hfk harr hbl
      have hk_arr : k < array.length := harr k (by rw [List.mem_range'_1]; omega)
      have hsub : fromIdx ≤ margin + k := by omega
      by_cases hbreak : SIZE ≤ margin + k - fromIdx
      · refine ⟨buffer, ?_, rfl, fun j => ?_⟩
        · rw [List.range'_succ]
          simp only [driftBeginLoop, checkedSub_of_le hsub, Option.bind_eq_bind,
            Option.some_bind, if_pos hbreak]
        · rw [if_neg]
          omega
      · have hwr : margin + k - fromIdx < buffer.length := by omega
        obtain ⟨r, hr, hlen, hget⟩ := ih (k + 1)
          (buffer.set (margin + k - fromIdx) array[k])
          (by omega)
          (fun i hi => harr i (by rw [List.mem_range'_1] at hi ⊢; omega))
          (by rw [List.length_set]; exact hbl)
        refine ⟨r, ?_, by rw [hlen, List.length_set], fun j => ?_⟩
        · rw [List.range'_succ]
          simp only [driftBeginLoop, checkedSub_of_le hsub, Option.bind_eq_bind,
            Option.some_bind, if_neg hbreak, readAt,
            List.getElem?_eq_getElem hk_arr, writeAt_of_lt _ hwr]
          exact hr
        · rw [hget j]
          by_cases h1 : margin ≤ j ∧ k + 1 ≤ fromIdx + (j - margin) ∧
              fromIdx + (j - margin) < k + 1 + n ∧ j < SIZE
          · rw [if_pos h1, if_pos (by omega)]
          · rw [if_neg h1]
            by_cases h2 : j = margin + k - fromIdx
            · subst h2
              have hF : fromIdx + (margin + k - fromIdx - margin) = k := by omega
              rw [List.getElem?_set_eq_of_lt _ hwr,
                if_pos (show _ ∧ _ ∧ _ ∧ _ by omega), hF,
                List.getElem?_eq_getElem hk_arr]
            · rw [List.getElem?_set_ne (by omega), if_neg (by omega)]

lemma firstFrom_ge {T : Type} [DecidableEq T] (f : Nat → T) (till : T) :
    ∀ (n k : Nat), k ≤ firstFrom f till k n := by
  intro n
  induction n with
  | zero => intro k; exact Nat.le_refl k
  | succ n ih =>
      intro k
      simp only [firstFrom]
      split
      · exact Nat.le_refl k
      · exact Nat.le_trans (Nat.le_succ k) (ih (k + 1))

lemma firstFrom_le {T : Type} [DecidableEq T] (f : Nat → T) (till : T) :
    ∀ (n k : Nat), firstFrom f till k n ≤ k + n := by
  intro n
  induction n with
  | zero => intro k; exact Nat.le_refl k
  | succ n ih =>
      intro k
      simp only [firstFrom]
      split
      · omega
      · have := ih (k + 1)
        omega

lemma firstFrom_not_sentinel {T : Type} [DecidableEq T] (f : Nat → T) (till : T) :
    ∀ (n k j : Nat), k ≤ j → j < firstFrom f till k n → f j ≠ till := by
  intro n
  induction n with
  | zero =>
      intro k j hkj hj
      simp only [firstFrom] at hj
      omega
  | succ n ih =>
      intro k j hkj hj
      rw [firstFrom] at hj
      by_cases hk : f k = till
      · rw [if_pos hk] at hj
        omega
      · rw [if_neg hk] at hj
        by_cases hjk : j = k
        · subst hjk
          exact hk
        · exact ih (k + 1) j (by omega) hj

lemma firstFrom_sentinel {T : Type} [DecidableEq T] (f : Nat → T) (till : T) :
    ∀ (n k : Nat), firstFrom f till k n < k + n →
      f (firstFrom f till k n) = till := by
  intro n
  induction n with
  | zero =>
      intro k hk
      simp only [firstFrom] at hk
      omega
  | succ n ih =>
      intro k hk
      rw [firstFrom]
      by_cases hf : f k = till
      · rw [if_pos hf]
        exact hf
      · rw [if_neg hf]
        refine ih (k + 1) ?_
        rw [firstFrom, if_neg hf] at hk
        omega

/-- Characterization of the loop of `initialize_till`: starting at index `k`
with `k + n = OUTPUT_SIZE`, it writes `f j` at each position until (and
excluding) the first sentinel position, and returns that position. -/
lemma initTillLoop_spec {T : Type} [DecidableEq T] (f : Nat → T) (till : T)
    (OUTPUT : Nat) :
    ∀ (n k : Nat) (buffer : List T), k + n = OUTPUT → buffer.length = OUTPUT →
      ∃ B, initTillLoop f till OUTPUT (List.range' k n) buffer =
          some (B, firstFrom f till k n) ∧
        B.length = buffer.length ∧
        ∀ j, B[j]? = if k ≤ j ∧ j < firstFrom f till k n then some (f j)
          else buffer[j]? := by
  intro n
  induction n with
  | zero =>
      intro k buffer hk _
      have hOUT : OUTPUT = k := by omega
      subst hOUT
      refine ⟨buffer, rfl, rfl, fun j => ?_⟩
      rw [if_neg]
      simp only [firstFrom]
      omega
  | succ n ih =>
      intro k buffer hk hbl
      have hk_buf : k < buffer.length := by omega
      by_cases hf : f k = till
      · refine ⟨buffer, ?_, rfl, fun j => ?_⟩
        · rw [List.range'_succ]
          simp only [initTillLoop, if_pos hf, firstFrom]
        · rw [firstFrom, if_pos hf, if_neg]
          omega
      · obtain ⟨B, hB, hlen, hget⟩ := ih (k + 1) (buffer.set k (f k))
          (by omega) (by rw [List.length_set]; exact hbl)
        have hge : k + 1 ≤ firstFrom f till (k + 1) n := firstFrom_ge f till n (k + 1)
        refine ⟨B, ?_, by rw [hlen, List.length_set], fun j => ?_⟩
        · rw [List.range'_succ]
          simp only [initTillLoop, if_neg hf, writeAt_of_lt _ hk_buf,
            Option.bind_eq_bind, Option.some_bind, firstFrom]
          exact hB
        · rw [hget j, firstFrom, if_neg hf]
          by_cases h1 : k + 1 ≤ j ∧ j < firstFrom f till (k + 1) n
          · rw [if_pos h1, if_pos (by omega)]
          · rw [if_neg h1]
            by_cases h2 : j = k
            · subst h2
              rw [List.getElem?_set_eq_of_lt _ hk_buf, if_pos (by omega)]
            · rw [List.getElem?_set_ne (by omega), if_neg (by omega)]

/-- The generation loop of `initialize_from_result` is the generation loop of
`initialize_from_option` composed with `Result::ok`. -/
lemma initResultLoop_eq_initOptionLoop {T E : Type} (f : Nat → Except E T)
    (OUTPUT : Nat) :
    ∀ (L : List Nat) (buffer : List T),
      initResultLoop f OUTPUT L buffer =
        initOptionLoop (fun i => resultOk (f i)) OUTPUT L buffer := by
  intro L
  induction L with
  | nil => intro buffer; rfl
  | cons i rest ih =>
      intro buffer
      simp only [initResultLoop, initOptionLoop]
      cases hfi : f i with
      | error e => simp only [resultOk]
      | ok v =>
          simp only [resultOk]
          cases writeAt buffer i v with
          | none => rfl
          | some buffer' =>
              simp only [Option.bind_eq_bind, Option.some_bind]
              exact ih buffer'

/-- `sized_slice` never panics; its result copies `original[from + j]` to
position `j` for every source index in `[from, min(till, ORIG))` that fits,
and keeps `fill` elsewhere. -/
lemma sized_slice_spec {T : Type} (original : List T) (fromIdx till SLICE : Nat)
    (fill : T) :
    ∃ r, sized_slice original fromIdx till SLICE fill = some r ∧
      r.length = SLICE ∧
      ∀ j, r[j]? = if fromIdx + j < min_of_sizes till original.length ∧ j < SLICE
        then original[fromIdx + j]? else (List.replicate SLICE fill)[j]? := by
  have hmin := min_of_sizes_eq till original.length
  obtain ⟨r, hr, hlen, hget⟩ := sliceWriteLoop_spec original fromIdx SLICE
    (min_of_sizes till original.length - fromIdx) fromIdx
    (List.replicate SLICE fill)
    (Nat.le_refl fromIdx)
    (fun i hi => by rw [List.mem_range'_1] at hi; omega)
    (List.length_replicate SLICE fill)
  refine ⟨r, hr, by rw [hlen, List.length_replicate], fun j => ?_⟩
  rw [hget j]
  simp only [min_of_sizes_eq]
  split_ifs <;> first | rfl | omega

/-- `superimpose` never panics; its result takes `sub[j - k]` on the window
`[k, min(k + SUB, MAIN))` and `main[j]` elsewhere. -/
lemma superimpose_spec {T : Type} (main sub : List T) (k : Nat) :
    ∃ r, superimpose main sub k = some r ∧
      r.length = main.length ∧
      ∀ j, r[j]? = if k ≤ j ∧ j < min_of_sizes (k + sub.length) main.length
        then sub[j - k]? else main[j]? := by
  have hmin := min_of_sizes_eq (k + sub.length) main.length
  obtain ⟨r, hr, hlen, hget⟩ := superimposeLoop_spec sub k
    (min_of_sizes (k + sub.length) main.length - k) k main
    (Nat.le_refl k)
    (fun i hi => by rw [List.mem_range'_1] at hi; omega)
    (fun i hi => by rw [List.mem_range'_1] at hi; omega)
  refine ⟨r, hr, hlen, fun j => ?_⟩
  rw [hget j]
  simp only [min_of_sizes_eq]
  split_ifs <;> first | rfl | omega

/-- `array_resize` never panics; its result copies the first
`min(INPUT_SIZE, OUTPUT_SIZE)` elements and keeps `fill` elsewhere. -/
lemma array_resize_spec {T : Type} (array : List T) (OUT : Nat) (fill : T) :
    ∃ r, array_resize array OUT fill = some r ∧ r.length = OUT ∧
      ∀ j, r[j]? = if j < min_of_sizes array.length OUT then array[j]?
        else (List.replicate OUT fill)[j]? := by
  have hmin := min_of_sizes_eq array.length OUT
  obtain ⟨r, hr, hlen, hget⟩ := copyLoop_spec array
    (min_of_sizes array.length OUT) 0
    (List.replicate OUT fill)
    (fun i hi => by rw [List.mem_range'_1] at hi; omega)
    (fun i hi => by
      rw [List.mem_range'_1] at hi
      rw [List.length_replicate]
      omega)
  refine ⟨r, hr, by rw [hlen, List.length_replicate], fun j => ?_⟩
  rw [hget j]
  simp only [min_of_sizes_eq]
  split_ifs <;> first | rfl | omega

/-- When the declared result size is exactly `L + R`, `join` concatenates. -/
lemma join_full {T : Type} (left right : List T) (fill : T) :
    join left right (left.length + right.length) fill = some (left ++ right) := by
  have hminL := min_of_sizes_eq left.length (left.length + right.length)
  have hminLR :=
    min_of_sizes_eq (left.length + right.length) (left.length + right.length)
  obtain ⟨b1, hb1, hlen1, hget1⟩ := copyLoop_spec left
    (min_of_sizes left.length (left.length + right.length)) 0
    (List.replicate (left.length + right.length) fill)
    (fun i hi => by rw [List.mem_range'_1] at hi; omega)
    (fun i hi => by
      rw [List.mem_range'_1] at hi
      rw [List.length_replicate]
      omega)
  obtain ⟨r, hr2, hlen2, hget2⟩ := joinLoop2_spec right left.length right.length
    rfl
    (min_of_sizes (left.length + right.length) (left.length + right.length) -
      left.length)
    left.length b1
    (Nat.le_refl left.length)
    (fun i hi => by
      rw [List.mem_range'_1] at hi
      rw [hlen1, List.length_replicate]
      omega)
  unfold join
  rw [hb1, Option.some_bind, hr2]
  congr 1
  apply List.ext_getElem?
  intro j
  rw [hget2 j, hget1 j]
  rcases Nat.lt_or_ge j left.length with hj | hj
  · rw [if_neg (by omega), if_pos (by omega), List.getElem?_append_left hj]
  · rcases Nat.lt_or_ge j (left.length + right.length) with hj2 | hj2
    · rw [if_pos (show _ ∧ _ ∧ _ by omega), List.getElem?_append_right hj]
    · rw [if_neg (by omega), if_neg (by omega), List.getElem?_replicate,
        if_neg (by omega),
        List.getElem?_eq_none
          (show (left ++ right).length ≤ j by rw [List.length_append]; omega)]

/-- When the declared output sizes are exactly the lengths of the two halves,
`splice` splits a concatenation back into its halves. -/
lemma splice_full {T : Type} (left right : List T) (anyFill : T) :
    splice (left ++ right) left.length right.length anyFill =
      some (left, right) := by
  have hlenA : (left ++ right).length = left.length + right.length :=
    List.length_append left right
  have hminL := min_of_sizes_eq left.length (left ++ right).length
  have hminLR :=
    min_of_sizes_eq (left.length + right.length) (left ++ right).length
  obtain ⟨l2, hl2, hlen1, hget1⟩ := copyLoop_spec (left ++ right)
    (min_of_sizes left.length (left ++ right).length) 0
    (List.replicate left.length anyFill)
    (fun i hi => by rw [List.mem_range'_1] at hi; omega)
    (fun i hi => by
      rw [List.mem_range'_1] at hi
      rw [List.length_replicate]
      omega)
  obtain ⟨r2, hr2, hlen2, hget2⟩ := sliceWriteLoop_spec (left ++ right)
    left.length right.length
    (min_of_sizes (left.length + right.length) (left ++ right).length -
      left.length)
    left.length (List.replicate right.length anyFill)
    (Nat.le_refl left.length)
    (fun i hi => by rw [List.mem_range'_1] at hi; omega)
    (List.length_replicate right.length anyFill)
  have hL : l2 = left := by
    apply List.ext_getElem?
    intro j
    rw [hget1 j]
    rcases Nat.lt_or_ge j left.length with hj | hj
    · rw [if_pos (by omega), List.getElem?_append_left hj]
    · rw [if_neg (by omega), List.getElem?_replicate, if_neg (by omega),
        List.getElem?_eq_none hj]
  have hR : r2 = right := by
    apply List.ext_getElem?
    intro j
    rw [hget2 j]
    rcases Nat.lt_or_ge j right.length with hj | hj
    · rw [if_pos (show _ ∧ _ ∧ _ by omega), List.getElem?_append_right
        (Nat.le_add_right left.length j), Nat.add_sub_cancel_left]
    · rw [if_neg (by omega), List.getElem?_replicate, if_neg (by omega),
        List.getElem?_eq_none hj]
  unfold splice
  rw [hl2, Option.some_bind, hr2, Option.some_bind, hL, hR]

/-- C1: the claim that every operation is total and panic-free fails on
`drift_to_end`.  At `seq = [0]` (`SIZE = 1`), `till = 1`, `margin = 1`,
`fill = 0`, the buffer index `SIZE - margin - till + i` underflows, so the
Rust function panics instead of returning an array of length `SIZE`; the
embedding accordingly evaluates to `none`. -/
theorem drift_to_end_panics_on_underflow :
    drift_to_end ([0] : List Nat) 1 1 0 = none := by decide

/-- C2: the claim fails on the `margin ≥ SIZE` half.  At `seq = [5, 6]`
(`SIZE = 2`), `till = 1`, `margin = 2` and `fill = 0` the function's own
doc note promises `[fill; SIZE]`, but the subtraction
`SIZE - margin - till` underflows and the Rust code panics; the embedding
accordingly evaluates to `none` rather than `some [0, 0]`. -/
theorem drift_to_end_margin_ge_size_panics :
    drift_to_end ([5, 6] : List Nat) 1 2 0 = none := by decide

/-- C3: `drift_to_begin(seq, from, margin, fill)` coincides with
superimposing `sized_slice(seq, from, SIZE, fill)` (slice length `SIZE`)
onto the all-`fill` array of length `SIZE` at offset `margin`. -/
theorem drift_to_begin_eq_superimpose_sized_slice {T : Type} (seq : List T)
    (fromIdx margin : Nat) (fill : T) :
    drift_to_begin seq fromIdx margin fill =
      (sized_slice seq fromIdx seq.length seq.length fill).bind
        (fun s => superimpose (List.replicate seq.length fill) s margin) := by
  obtain ⟨s, hs, hslen, hsget⟩ :=
    sized_slice_spec seq fromIdx seq.length seq.length fill
  rw [hs, Option.some_bind]
  obtain ⟨r2, hr2, hr2len, hr2get⟩ :=
    superimpose_spec (List.replicate seq.length fill) s margin
  rw [hr2]
  obtain ⟨r1, hr1, hr1len, hr1get⟩ := driftBeginLoop_spec seq seq.length margin
    fromIdx (seq.length - fromIdx) fromIdx (List.replicate seq.length fill)
    (Nat.le_refl fromIdx)
    (fun i hi => by rw [List.mem_range'_1] at hi; omega)
    (List.length_replicate seq.length fill)
  have hd : drift_to_begin seq fromIdx margin fill = some r1 := hr1
  rw [hd]
  congr 1
  apply List.ext_getElem?
  intro j
  rw [hr1get j, hr2get j, hsget (j - margin)]
  simp only [min_of_sizes_eq, List.length_replicate, hslen,
    List.getElem?_replicate]
  split_ifs <;> first | rfl | omega

/-- C4: joining `left` and `right` into an array of length `L + R` and then
splicing it back with output lengths `L` and `R` recovers `(left, right)`
exactly, for any fill values. -/
theorem join_splice_roundtrip {T : Type} (left right : List T)
    (fill anyFill : T) :
    (join left right (left.length + right.length) fill).bind
      (fun r => splice r left.length right.length anyFill) =
      some (left, right) := by
  rw [join_full left right fill, Option.some_bind]
  exact splice_full left right anyFill

/-- C5: `initialize_till` returns the pair `(buffer, stopIndex)` where
`stopIndex` is the least index below `OUTPUT_SIZE` whose generated value
equals `till` (or `OUTPUT_SIZE` if none), the buffer holds `f j` strictly
below `stopIndex` and `fill` from `stopIndex` on.  The first three
conjuncts state that `firstSentinel` is that least index. -/
theorem initialize_till_correct {T : Type} [DecidableEq T] (f : Nat → T)
    (till fill : T) (OUTPUT_SIZE : Nat) :
    firstSentinel f till OUTPUT_SIZE ≤ OUTPUT_SIZE ∧
    (∀ j, j < firstSentinel f till OUTPUT_SIZE → f j ≠ till) ∧
    (firstSentinel f till OUTPUT_SIZE < OUTPUT_SIZE →
      f (firstSentinel f till OUTPUT_SIZE) = till) ∧
    initialize_till f till fill OUTPUT_SIZE =
      some ((List.range OUTPUT_SIZE).map fun j =>
          if j < firstSentinel f till OUTPUT_SIZE then f j else fill,
        firstSentinel f till OUTPUT_SIZE) := by
  have hfs : firstSentinel f till OUTPUT_SIZE = firstFrom f till 0 OUTPUT_SIZE :=
    rfl
  obtain ⟨B, hB, hlen, hget⟩ := initTillLoop_spec f till OUTPUT_SIZE OUTPUT_SIZE
    0 (List.replicate OUTPUT_SIZE fill) (Nat.zero_add OUTPUT_SIZE)
    (List.length_replicate OUTPUT_SIZE fill)
  refine ⟨?_, ?_, ?_, ?_⟩
  · rw [hfs]
    have h := firstFrom_le f till OUTPUT_SIZE 0
    omega
  · intro j hj
    rw [hfs] at hj
    exact firstFrom_not_sentinel f till OUTPUT_SIZE 0 j (Nat.zero_le j) hj
  · rw [hfs]
    intro h
    exact firstFrom_sentinel f till OUTPUT_SIZE 0 (by omega)
  · have hBM : B = (List.range OUTPUT_SIZE).map fun j =>
        if j < firstSentinel f till OUTPUT_SIZE then f j else fill := by
      apply List.ext_getElem?
      intro j
      rw [hget j, List.getElem?_map, hfs]
      rcases Nat.lt_or_ge j OUTPUT_SIZE with hj | hj
      · rw [List.getElem?_range hj]
        by_cases hjf : j < firstFrom f till 0 OUTPUT_SIZE
        · rw [if_pos (by omega), Option.map_some', if_pos hjf]
        · rw [if_neg (by omega), List.getElem?_replicate, if_pos hj,
            Option.map_some', if_neg hjf]
      · have hle := firstFrom_le f till OUTPUT_SIZE 0
        rw [if_neg (by omega), List.getElem?_replicate, if_neg (by omega),
          List.getElem?_eq_none (by rw [List.length_range]; omega),
          Option.map_none']
    have hinit : initialize_till f till fill OUTPUT_SIZE =
        some (B, firstFrom f till 0 OUTPUT_SIZE) := hB
    rw [hinit, hBM, hfs]

/-- C5 witness: a concrete run with `f = id`, sentinel `2`, fill `9` and
output size `4`. -/
theorem initialize_till_correct_witness :
    initialize_till (fun j => j) 2 9 4 = some ([0, 1, 9, 9], 2) :=
  ((initialize_till_correct (fun j => j) 2 9 4).2.2.2).trans (by decide)

/-- C6: `sized_slice` never performs an out-of-bounds access for any
combination of parameters (including `from > till` and `from ≥ ORIG`):
in the panic-checked embedding it always returns `some` result, of the
declared length `SLICE_SIZE`. -/
theorem sized_slice_no_oob {T : Type} (original : List T)
    (fromIdx till SLICE_SIZE : Nat) (fill : T) :
    ∃ r, sized_slice original fromIdx till SLICE_SIZE fill = some r ∧
      r.length = SLICE_SIZE := by
  obtain ⟨r, hr, hlen, _⟩ := sized_slice_spec original fromIdx till SLICE_SIZE fill
  exact ⟨r, hr, hlen⟩

/-- C7: frame property of `superimpose`: the result agrees with `main` at
every index outside `[k, k + SUB)` intersected with `[0, MAIN)` (in
particular at every index when `k ≥ MAIN`). -/
theorem superimpose_frame {T : Type} (main sub r : List T) (k j : Nat)
    (hr : superimpose main sub k = some r)
    (hj : j < k ∨ k + sub.length ≤ j ∨ main.length ≤ j) :
    r[j]? = main[j]? := by
  obtain ⟨r2, hr2, hlen, hget⟩ := superimpose_spec main sub k
  rw [hr] at hr2
  obtain rfl : r = r2 := Option.some.inj hr2
  have hm := min_of_sizes_eq (k + sub.length) main.length
  rw [hget j, if_neg]
  omega

/-- C7 witness: `superimpose [1, 2, 3] [9] 1 = some [1, 9, 3]` agrees with
the main array at index `0`, which lies before the window. -/
theorem superimpose_frame_witness :
    (([1, 9, 3] : List Nat))[0]? = (([1, 2, 3] : List Nat))[0]? :=
  superimpose_frame [1, 2, 3] [9] [1, 9, 3] 1 0 (by decide) (Or.inl (by decide))

/-- C8: resizing `seq` up to `OUT ≥ IN` with any fill and then resizing back
down to `IN` with any other fill reproduces `seq` exactly. -/
theorem array_resize_roundtrip {T : Type} (seq : List T) (fill anyFill : T)
    (OUT : Nat) (h : seq.length ≤ OUT) :
    (array_resize seq OUT fill).bind
      (fun r => array_resize r seq.length anyFill) = some seq := by
  obtain ⟨r, hr, hlen, hget⟩ := array_resize_spec seq OUT fill
  rw [hr, Option.some_bind]
  obtain ⟨r2, hr2, hlen2, hget2⟩ := array_resize_spec r seq.length anyFill
  rw [hr2]
  congr 1
  apply List.ext_getElem?
  intro j
  have hm1 := min_of_sizes_eq seq.length OUT
  have hm2 := min_of_sizes_eq r.length seq.length
  rw [hget2 j]
  rcases Nat.lt_or_ge j seq.length with hj | hj
  · rw [if_pos (by omega), hget j, if_pos (by omega)]
  · rw [if_neg (by omega), List.getElem?_replicate, if_neg (by omega),
      List.getElem?_eq_none hj]

/-- C8 witness: resizing `[1, 2]` up to length `3` with fill `0` and back to
length `2` with fill `5` returns `[1, 2]`. -/
theorem array_resize_roundtrip_witness :
    (array_resize ([1, 2] : List Nat) 3 0).bind
      (fun r => array_resize r 2 5) = some [1, 2] :=
  array_resize_roundtrip [1, 2] 0 5 3 (by decide)

/-- C9: `initialize_from_result` coincides with `initialize_from_option`
composed with `Result::ok` (dropping the error payload), for every
generator, fill and output size. -/
theorem initialize_from_result_eq_from_option {T E : Type}
    (f : Nat → Except E T) (fill : T) (OUTPUT_SIZE : Nat) :
    initialize_from_result f fill OUTPUT_SIZE =
      initialize_from_option (fun i => resultOk (f i)) fill OUTPUT_SIZE :=
  initResultLoop_eq_initOptionLoop f OUTPUT_SIZE (List.range' 0 OUTPUT_SIZE)
    (List.replicate OUTPUT_SIZE fill)

/-- C10: superimposing the same sub-array at the same offset a second time
changes nothing. -/
theorem superimpose_idempotent {T : Type} (main sub : List T) (k : Nat) :
    (superimpose main sub k).bind (fun r => superimpose r sub k) =
      superimpose main sub k := by
  obtain ⟨r, hr, hlen, hget⟩ := superimpose_spec main sub k
  obtain ⟨r2, hr2, hlen2, hget2⟩ := superimpose_spec r sub k
  rw [hr, Option.some_bind, hr2]
  congr 1
  apply List.ext_getElem?
  intro j
  rw [hget2 j]
  by_cases h : k ≤ j ∧ j < min_of_sizes (k + sub.length) r.length
  · rw [if_pos h, hget j, if_pos (by rw [hlen] at h; exact h)]
  · rw [if_neg h]

example : drift_to_end [1, 2, 3, 0, 0, 0, 0] 3 0 (42 : Nat) =
    some [42, 42, 42, 42, 1, 2, 3] := by decide

example : drift_to_begin [1, 2, 3, 0, 0, 0, 0] 0 1 (0 : Nat) =
    some [0, 1, 2, 3, 0, 0, 0] := by decide

example : superimpose (List.replicate 8 (0 : Nat)) [1, 3, 3, 7] 2 =
    some [0, 0, 1, 3, 3, 7, 0, 0] := by decide

example : sized_slice [1, 2, 3, 4, 5, 6, 7, 8, 9] 2 6 4 (0 : Nat) =
    some [3, 4, 5, 6] := by decide

example : sized_slice [1, 2, 3, 4, 5, 6, 7, 8, 9] 6 8 6 (0 : Nat) =
    some [7, 8, 0, 0, 0, 0] := by decide

example : join [1, 2, 3] [4, 5, 6] 5 (0 : Nat) = some [1, 2, 3, 4, 5] := by
  decide

example : splice [4, 5, 6, 7, 0, 1, 2, 3, 0] 4 8 (0 : Nat) =
    some ([4, 5, 6, 7], [0, 1, 2, 3, 0, 0, 0, 0]) := by decide

example : initialize_till (fun index => index) 5 42 8 =
    some ([0, 1, 2, 3, 4, 42, 42, 42], 5) := by decide

example : array_resize [1, 2, 3] 4 (0 : Nat) = some [1, 2, 3, 0] := by decide

end ArrayUtils
